import Mathlib

/-!
Verification of the wwpppp core against its design document.

The Python sources (geometry.py, palette.py, ingest.py, projects.py,
main.py) are shallowly embedded below: pure functions become Lean
functions, the SQLite caches and the in-memory tile index become
explicit state passed through the operations, and fallible code
returns Option or Except.  Machine integers are modelled as Int / Nat
(all arithmetic in the sources is exact Python integer arithmetic).
-/

namespace Wwpppp

/-- A point in 2D lattice space (geometry.py, class Point). -/
structure Point where
  x : Int
  y : Int
deriving DecidableEq

/-- A size in 2D lattice space (geometry.py, class Size). -/
structure Size where
  w : Int
  h : Int
deriving DecidableEq

/-- A rectangle in 2D lattice space, PIL-style edge coordinates
(geometry.py, class Rectangle). -/
structure Rectangle where
  left : Int
  top : Int
  right : Int
  bottom : Int
deriving DecidableEq

/-- Python range(a, b) over integers: a, a+1, ..., b-1 (empty when b <= a). -/
def intRange (a b : Int) : List Int :=
  (List.range (b - a).toNat).map (fun i : Nat => a + (i : Int))

/-- Point.from4 (geometry.py): builds the point (tx*1000+px, ty*1000+py).
The two Python asserts (all components non-negative, pixel components
below 1000) are modelled by returning none when they fail. -/
def Point.from4 (tx ty px py : Int) : Option Point :=
  if 0 ≤ tx ∧ 0 ≤ ty ∧ 0 ≤ px ∧ 0 ≤ py ∧ px < 1000 ∧ py < 1000 then
    some ⟨tx * 1000 + px, ty * 1000 + py⟩
  else none

/-- Rectangle.from_point_size (geometry.py). -/
def Rectangle.from_point_size (p : Point) (s : Size) : Rectangle :=
  ⟨p.x, p.y, p.x + s.w, p.y + s.h⟩

/-- Rectangle.tiles (geometry.py): floor division on the near edges,
ceiling division on the far edges, then the product of the two ranges.
Int.fdiv is Python's floor division //. -/
def Rectangle.tiles (r : Rectangle) : List (Int × Int) :=
  let l := r.left.fdiv 1000
  let t := r.top.fdiv 1000
  let rr := (r.right + 999).fdiv 1000
  let b := (r.bottom + 999).fdiv 1000
  (intRange l rr).flatMap (fun tx => (intRange t b).map (fun ty => (tx, ty)))

/-- Modelled from the spec: the brute-force pixel scan of section 8 —
tile (tx, ty) intersects the area of r when some pixel (x, y) of r
(PIL half-open edges) lies in that tile's 1000x1000 cell.  This is the
spec-side definition, to be compared with Rectangle.tiles. -/
def tileIntersectsSpec (r : Rectangle) (tx ty : Int) : Prop :=
  ∃ x y : Int, r.left ≤ x ∧ x < r.right ∧ r.top ≤ y ∧ y < r.bottom ∧
    x.fdiv 1000 = tx ∧ y.fdiv 1000 = ty

/-- Python's `and` on integers: `a and b` is a when a is falsy (zero), else b. -/
def pyAnd (a b : Nat) : Nat := if a = 0 then a else b

/-- pixel_compare (projects.py): (0, 0) when desired equals current,
else (desired, current and desired). -/
def pixel_compare (current desired : Nat) : Nat × Nat :=
  if desired = current then (0, 0) else (desired, pyAnd current desired)

/-- The remaining image data computed inside Project.run_diff: first
components of pixel_compare over the zipped current/target data.
(Python's map over two sequences stops at the shorter one, as zipWith does.) -/
def remaining_of (current target : List Nat) : List Nat :=
  (List.zipWith pixel_compare current target).map Prod.fst

/-- The fix image data computed inside Project.run_diff: second components. -/
def fix_of (current target : List Nat) : List Nat :=
  (List.zipWith pixel_compare current target).map Prod.snd

/-- Filesystem effect of one Project.run_diff call (projects.py). -/
inductive DiffOutcome where
  /-- the intended not-started case (remaining equals the untouched
  target): return immediately, nothing written, nothing deleted.  This
  outcome is unreachable in the program, see bytesEqImagingCore; the
  constructor is kept to mirror the source's branch structure. -/
  | notStarted
  /-- every remaining byte is 0: both derived files unlinked, nothing written. -/
  | complete
  /-- the remaining image is saved and the fix file is unlinked. -/
  | remainingOnly (remaining : List Nat)
  /-- both the remaining and the fix images are saved. -/
  | saveBoth (remaining fixData : List Nat)
deriving DecidableEq

/-- The comparison remaining_data == target_data guarding run_diff's
first return (projects.py): remaining_data is a bytes object, while
target_data is the ImagingCore sequence returned by Image.getdata().
In CPython bytes.__eq__ returns NotImplemented for that operand and
ImagingCore defines no rich comparison, so the comparison falls back to
identity and is always False, whatever the contents.  The arguments are
kept so the definition records which values the source compares. -/
def bytesEqImagingCore (_remaining _target : List Nat) : Bool := false

/-- Project.run_diff (projects.py): the branch structure over the computed
remaining and fix data.  The first branch's comparison is the always
false bytes-versus-ImagingCore equality (see bytesEqImagingCore);
max(bytes) == 0 is modelled as foldr max 0 = 0. -/
def run_diff (current target : List Nat) : DiffOutcome :=
  if bytesEqImagingCore (remaining_of current target) target then .notStarted
  else if (remaining_of current target).foldr max 0 = 0 then .complete
  else if fix_of current target = remaining_of current target ∨
      (fix_of current target).foldr max 0 = 0 then
    .remainingOnly (remaining_of current target)
  else .saveBoth (remaining_of current target) (fix_of current target)

/-- One row of the SQLite projects cache (projects.py, CachedProjectMetadata):
filename is the primary key. -/
structure CacheRow where
  filename : String
  mtime : Int
  left : Int
  top : Int
  right : Int
  bottom : Int
deriving DecidableEq

/-- The rectangle stored in a cache row. -/
def rectOfRow (row : CacheRow) : Rectangle := ⟨row.left, row.top, row.right, row.bottom⟩

/-- CachedProjectMetadata._load (projects.py): SELECT by filename; a missing
row or a stored mtime different from the current one is a miss ([]),
otherwise the stored rectangle ([rect]). -/
def metadataLoad (db : List CacheRow) (key : String) (mtime : Int) : List Rectangle :=
  match db.find? (fun row => row.filename == key) with
  | none => []
  | some row => if row.mtime ≠ mtime then [] else [rectOfRow row]

/-- CachedProjectMetadata.__call__ (projects.py): REPLACE INTO cache —
the new row displaces any prior row with the same filename. -/
def metadataStore (db : List CacheRow) (key : String) (mtime : Int) (r : Rectangle) :
    List CacheRow :=
  ⟨key, mtime, r.left, r.top, r.right, r.bottom⟩ :: db.filter (fun row => row.filename != key)

/-- The tile cache (ingest.py): per tile coordinate, the stored quantized
tile bytes plus the cache file's timestamp (set via os.utime). -/
structure TileStore where
  store : (Int × Int) → Option (List Nat × Int)

/-- FoundTile.obtain (ingest.py): the incoming sub-image is cropped and
quantized (a ColorNotInPalette failure during PALETTE.ensure is modelled
as quantized = none, logged and ignored); a fully transparent tile
(getextrema maximum equal to 0) is discarded; otherwise the tile is
saved to the cache unconditionally, its timestamp set to the source
file's mtime, and true is returned.  The code has no comparison against
the currently stored tile. -/
def FoundTile.obtain (cache : TileStore) (tile : Int × Int) (quantized : Option (List Nat))
    (sourceTimestamp : Int) : Bool × TileStore :=
  match quantized with
  | none => (false, cache)
  | some img =>
    if img.all (fun v => v == 0) then (false, cache)
    else (true, ⟨fun t => if t = tile then some (img, sourceTimestamp) else cache.store t⟩)

/-- A concrete one-entry tile cache used for claim C3: tile (4,5) holds
bytes [1,2] with timestamp 5. -/
def c3cache : TileStore :=
  ⟨fun t => if t = ((4 : Int), (5 : Int)) then some ([1, 2], 5) else none⟩

/-- The separator character class [- _] of _RE_HAS_COORDS (projects.py). -/
def isSepChar (c : Char) : Bool := c == '-' || c == '_' || c == ' '

/-- Python int() on a run of decimal digit characters. -/
def digitVal (l : List Char) : Nat := l.foldl (fun acc ch => acc * 10 + (ch.toNat - 48)) 0

/-- One step of matching _RE_HAS_COORDS from the right end of the name:
rl is the not-yet-matched part of the filename, reversed.  Consumes a
non-empty run of digits and then one separator character, returning the
decoded integer and the remaining reversed text. -/
def parseNumFromEnd (rl : List Char) : Option (Nat × List Char) :=
  if (rl.takeWhile Char.isDigit).isEmpty then none
  else
    match rl.dropWhile Char.isDigit with
    | ch :: rest2 =>
      if isSepChar ch then some (digitVal (rl.takeWhile Char.isDigit).reverse, rest2) else none
    | [] => none

/-- The filename gate of Project.try_open (projects.py): re.search of
the end-anchored pattern with groups ([- _](digits))x4 followed by .png,
case-insensitively (re.IGNORECASE only affects the png letters).
Because the pattern is anchored at the end and each digit run is
delimited on the left by a separator (a non-digit), a matching
decomposition of the name is unique, so this right-to-left scan
computes exactly re.search's match groups in order.  Digits are
modelled as ASCII 0-9. -/
def matchCoords (name : List Char) : Option (Nat × Nat × Nat × Nat) :=
  match name.reverse with
  | g :: n :: p :: c :: rest =>
    if c == '.' && p.toLower == 'p' && n.toLower == 'n' && g.toLower == 'g' then
      match parseNumFromEnd rest with
      | none => none
      | some (d4, r1) =>
        match parseNumFromEnd r1 with
        | none => none
        | some (d3, r2) =>
          match parseNumFromEnd r2 with
          | none => none
          | some (d2, r3) =>
            match parseNumFromEnd r3 with
            | none => none
            | some (d1, _) => some (d1, d2, d3, d4)
    else none
  | _ => none

/-- A non-empty run of decimal digit characters. -/
def IsDigitRun (l : List Char) : Prop := l ≠ [] ∧ ∀ c ∈ l, c.isDigit = true

/-- Modelled from the spec: claim C9's reading of the filename contract —
the filename contains four integers separated by one of -, _ or space,
immediately before the .png extension.  No separator is required before
the first integer; this is the spec-side predicate, to be compared with
matchCoords. -/
def specHasCoords (name : List Char) : Prop :=
  ∃ pre d1 s1 d2 s2 d3 s3 d4 p n g,
    name = pre ++ d1 ++ [s1] ++ d2 ++ [s2] ++ d3 ++ [s3] ++ d4 ++ ['.', p, n, g] ∧
    IsDigitRun d1 ∧ IsDigitRun d2 ∧ IsDigitRun d3 ∧ IsDigitRun d4 ∧
    isSepChar s1 = true ∧ isSepChar s2 = true ∧ isSepChar s3 = true ∧
    p.toLower = 'p' ∧ n.toLower = 'n' ∧ g.toLower = 'g'

/-- The 64 palette colors of palette.py (_COLORS) as 0xRRGGBB values in
source order; index 0 (0xFF00FF) is the transparent placeholder and is
never a paintable color. -/
def COLORS : List Nat := [
  0xFF00FF, 0x000000, 0x3C3C3C, 0x787878, 0xD2D2D2, 0xFFFFFF, 0x600018, 0xED1C24,
  0xFF7F27, 0xF6AA09, 0xF9DD3B, 0xFFFABC, 0x0EB968, 0x13E67B, 0x87FF5E, 0x0C816E,
  0x10AEA6, 0x13E1BE, 0x60F7F2, 0x28509E, 0x4093E4, 0x6B50F6, 0x99B1FB, 0x780C99,
  0xAA38B9, 0xE09FF9, 0xCB007A, 0xEC1F80, 0xF38DA9, 0x684634, 0x95682A, 0xF8B277,
  0xAAAAAA, 0xA50E1E, 0xFA8072, 0xE45C1A, 0x9C8431, 0xC5AD31, 0xE8D45F, 0x4A6B3A,
  0x5A944A, 0x84C573, 0x0F799F, 0xBBFAF2, 0x7DC7FF, 0x4D31B8, 0x4A4284, 0x7A71C4,
  0xB5AEF1, 0x9B5249, 0xD18078, 0xFAB6A4, 0xDBA463, 0x7B6352, 0x9C846B, 0xD6B594,
  0xD18051, 0xFFC5A5, 0x6D643F, 0x948C6B, 0xCDC59E, 0x333941, 0x6D758D, 0xB3B9D1]

/-- The rgb2pal dictionary of Palette.__init__ before the alias entry:
every color except index 0, keyed by its packed RGB value. -/
def rgb2palBase : List (Nat × Nat) :=
  (COLORS.enum.filter (fun p => p.1 != 0)).map (fun p => (p.2, p.1))

/-- The full rgb2pal dictionary: the historical alias 0x10AE82 (the wrong
teal reported by wplacepaint.com) maps to the index of 0x10AEA6. -/
def rgb2pal : List (Nat × Nat) :=
  rgb2palBase ++ [(0x10AE82, (rgb2palBase.lookup 0x10AEA6).getD 0)]

/-- Palette._idx: the sorted keys of rgb2pal (Python sorted(...)). -/
def palIdx : List Nat := (rgb2pal.map Prod.fst).insertionSort (fun a b => a ≤ b)

/-- Palette._values: the rgb2pal value for each key of palIdx, in order. -/
def palValues : List Nat := palIdx.map (fun c => (rgb2pal.lookup c).getD 0)

/-- Python's bisect.bisect_left on a sorted list: the leftmost insertion
point, i.e. the number of elements smaller than x. -/
def bisect_left (a : List Nat) (x : Nat) : Nat := a.countP (fun v => decide (v < x))

/-- The packed value (rgba[0] << 16) | (rgba[1] << 8) | rgba[2] computed
in Palette.lookup. -/
def rgbEncode (r g b : Nat) : Nat := (r <<< 16) ||| (g <<< 8) ||| b

/-- Palette.lookup (palette.py): a pixel with alpha 0 maps to index 0;
otherwise the packed RGB value is binary-searched in the sorted key
table; a missing key raises ColorNotInPalette carrying the color's hex
code, modelled as Except.error of the packed value (which the source
renders in hex). -/
def Palette.lookup (rgba : Nat × Nat × Nat × Nat) : Except Nat Nat :=
  if rgba.2.2.2 = 0 then Except.ok 0
  else
    let rgb := rgbEncode rgba.1 rgba.2.1 rgba.2.2.1
    let position := bisect_left palIdx rgb
    if position = palIdx.length ∨ palIdx.getD position 0 ≠ rgb then Except.error rgb
    else Except.ok (palValues.getD position 0)

/-- The RGBA quantization loop inside Palette.ensure (palette.py):
bytes(map(self.lookup, rgba.getdata())); the first ColorNotInPalette
aborts the whole conversion — no placeholder is substituted. -/
def Palette.ensureQuantize (pixels : List (Nat × Nat × Nat × Nat)) : Except Nat (List Nat) :=
  pixels.mapM Palette.lookup


/-- A tile coordinate, as used for the tile-to-project index (main.py). -/
abbrev Tile := Int × Int

/-- The state of Main (main.py): self.projects (a dict from source file
path to the Project's rectangle — Project identity is its path, see
Project.eqPy) and self.tiles, the tile-to-project index whose sets of
Projects are modelled as lists of paths, since Python set membership
uses Project.__eq__ which compares paths. -/
structure MainState where
  projects : List (String × Rectangle)
  tiles : List (Tile × List String)

/-- dict.get(tile, empty): the set of project paths indexed at a tile. -/
def lookupTile (idx : List (Tile × List String)) (t : Tile) : List String :=
  (idx.lookup t).getD []

/-- In-place mutation of the set stored under a key of self.tiles:
replace the entry for t by ps. -/
def setTile (idx : List (Tile × List String)) (t : Tile) (ps : List String) :
    List (Tile × List String) :=
  idx.map (fun e => if e.1 == t then (t, ps) else e)

/-- The per-tile body of Main.forget_project (main.py): projs =
self.tiles.get(tile); if projs: projs.discard(proj); if not projs:
del self.tiles[tile]. -/
def discardProj (idx : List (Tile × List String)) (t : Tile) (pa : String) :
    List (Tile × List String) :=
  match idx.lookup t with
  | none => idx
  | some ps =>
    if ps.isEmpty then idx
    else
      let ps2 := ps.filter (fun q => q != pa)
      if ps2.isEmpty then idx.filter (fun e => e.1 != t)
      else setTile idx t ps2

/-- The per-tile body of Main.load_project and Main._load_tiles:
self.tiles.setdefault(tile, set()).add(proj). -/
def addProj (idx : List (Tile × List String)) (t : Tile) (pa : String) :
    List (Tile × List String) :=
  match idx.lookup t with
  | none => (t, [pa]) :: idx
  | some ps => setTile idx t (if pa ∈ ps then ps else pa :: ps)

/-- Main.forget_project (main.py): pop the project; if absent do
nothing, else discard it from the index entry of every tile of its
rectangle, pruning entries that become empty, and forget its metadata. -/
def forget_project (s : MainState) (pa : String) : MainState :=
  match s.projects.lookup pa with
  | none => s
  | some rect =>
    { projects := s.projects.filter (fun e => e.1 != pa),
      tiles := rect.tiles.foldl (fun i t => discardProj i t pa) s.tiles }

/-- Main.load_project (main.py): forget first, then, when try_open
succeeds (opened = some rect), register the project and add it to every
tile of its rectangle. -/
def load_project (s : MainState) (pa : String) (opened : Option Rectangle) : MainState :=
  match opened with
  | none => forget_project s pa
  | some rect =>
    { projects := (pa, rect) :: (forget_project s pa).projects,
      tiles := rect.tiles.foldl (fun i t => addProj i t pa) (forget_project s pa).tiles }

/-- Main._load_tiles (main.py): build the initial index from the loaded
projects. -/
def load_tiles (ps : List (String × Rectangle)) : List (Tile × List String) :=
  ps.foldl (fun idx e => e.2.tiles.foldl (fun i t => addProj i t e.1) idx) []

/-- The state right after Main.__init__: the loaded projects and the
index built by _load_tiles. -/
def initState (ps : List (String × Rectangle)) : MainState := ⟨ps, load_tiles ps⟩

/-- The two index-mutating operations driven by watch_for_updates. -/
inductive MainOp where
  | forgetOp (path : String)
  | loadOp (path : String) (opened : Option Rectangle)

def applyOp (s : MainState) : MainOp → MainState
  | MainOp.forgetOp pa => forget_project s pa
  | MainOp.loadOp pa o => load_project s pa o

def applyOps (s : MainState) (ops : List MainOp) : MainState := ops.foldl applyOp s

/-- Well-formedness of the tile index: tile keys are unique (it models a
dict) and no entry holds an empty set. -/
def TilesWF (idx : List (Tile × List String)) : Prop :=
  (idx.map Prod.fst).Nodup ∧ ∀ e ∈ idx, e.2 ≠ []

/-- The Main invariant: unique project paths, well-formed tile index,
and the index maps a tile to exactly the live projects whose rectangle
covers it. -/
def StateInv (s : MainState) : Prop :=
  (s.projects.map Prod.fst).Nodup ∧ TilesWF s.tiles ∧
  ∀ t pa, pa ∈ lookupTile s.tiles t ↔ ∃ r, s.projects.lookup pa = some r ∧ t ∈ r.tiles

/-- A Project (projects.py): its source path, rectangle and lazily
loaded target image. -/
structure Project where
  path : String
  rect : Rectangle
  image : Option (List Nat)

/-- Project.__eq__ (projects.py): self.path == getattr(other, "path", ...),
restricted here to Project operands. -/
def Project.eqPy (a b2 : Project) : Bool := a.path == b2.path

/-- Project.__hash__ (projects.py): hash(self.path). -/
def Project.hashPy (p : Project) : UInt64 := p.path.hash

theorem mem_intRange {a b x : Int} : x ∈ intRange a b ↔ a ≤ x ∧ x < b := by
  constructor
  · intro h
    obtain ⟨i, hi, hx⟩ := List.mem_map.mp h
    have h2 : i < (b - a).toNat := List.mem_range.mp hi
    omega
  · rintro ⟨h1, h2⟩
    exact List.mem_map.mpr ⟨(x - a).toNat, List.mem_range.mpr (by omega), by omega⟩

theorem fdiv_1000_eq {x q : Int} : x.fdiv 1000 = q ↔ 1000 * q ≤ x ∧ x < 1000 * q + 1000 := by
  have h1 : 1000 * (x.fdiv 1000) + x.fmod 1000 = x := Int.fdiv_add_fmod x 1000
  have h2 : 0 ≤ x.fmod 1000 := Int.fmod_nonneg' x (by norm_num)
  have h3 : x.fmod 1000 < 1000 := Int.fmod_lt_of_pos x (by norm_num)
  omega

theorem mem_tiles {r : Rectangle} {tx ty : Int} :
    (tx, ty) ∈ r.tiles ↔
      r.left.fdiv 1000 ≤ tx ∧ tx < (r.right + 999).fdiv 1000 ∧
      r.top.fdiv 1000 ≤ ty ∧ ty < (r.bottom + 999).fdiv 1000 := by
  unfold Rectangle.tiles
  simp only [List.mem_flatMap, List.mem_map, mem_intRange, Prod.mk.injEq]
  constructor
  · rintro ⟨a, ⟨h1, h2⟩, b, ⟨h3, h4⟩, rfl, rfl⟩
    exact ⟨h1, h2, h3, h4⟩
  · rintro ⟨h1, h2, h3, h4⟩
    exact ⟨tx, ⟨h1, h2⟩, ty, ⟨h3, h4⟩, rfl, rfl⟩

/-- Claim C1, amended: for every rectangle with positive extent
(left < right and top < bottom), Rectangle.tiles is exactly the set of
tile coordinates whose 1000x1000 cell intersects the rectangle's area;
and the rectangle with point (2000,3000) and size (1500,800) yields
exactly the tile set containing (2,3) and (3,3).  (The original claim
only assumed left <= right, top <= bottom; a degenerate rectangle such
as (2500,3000,2500,3800) has empty area yet a non-empty tile list, see
the counterexample.) -/
theorem C1_tiles_exact (r : Rectangle) (h1 : r.left < r.right) (h2 : r.top < r.bottom)
    (tx ty : Int) :
    ((tx, ty) ∈ r.tiles ↔ tileIntersectsSpec r tx ty) ∧
    (Rectangle.from_point_size ⟨2000, 3000⟩ ⟨1500, 800⟩).tiles = [(2, 3), (3, 3)] := by
  refine ⟨?_, by decide⟩
  rw [mem_tiles]
  have hL := (fdiv_1000_eq (x := r.left)).mp rfl
  have hT := (fdiv_1000_eq (x := r.top)).mp rfl
  have hR := (fdiv_1000_eq (x := r.right + 999)).mp rfl
  have hB := (fdiv_1000_eq (x := r.bottom + 999)).mp rfl
  constructor
  · rintro ⟨ha, hb, hc, hd⟩
    refine ⟨max r.left (1000 * tx), max r.top (1000 * ty), ?_, ?_, ?_, ?_, ?_, ?_⟩
    · omega
    · omega
    · omega
    · omega
    · rw [fdiv_1000_eq]; omega
    · rw [fdiv_1000_eq]; omega
  · rintro ⟨x, y, hx1, hx2, hy1, hy2, hdx, hdy⟩
    have hbx := fdiv_1000_eq.mp hdx
    have hby := fdiv_1000_eq.mp hdy
    omega

/-- Claim C1 counterexample: the degenerate rectangle (2500,3000,2500,3800)
satisfies left <= right and top <= bottom, its area is empty so no tile
cell intersects it, yet Rectangle.tiles contains the tile (2,3). -/
theorem C1_counterexample :
    (Rectangle.mk 2500 3000 2500 3800).left ≤ (Rectangle.mk 2500 3000 2500 3800).right ∧
    (Rectangle.mk 2500 3000 2500 3800).top ≤ (Rectangle.mk 2500 3000 2500 3800).bottom ∧
    ((2 : Int), (3 : Int)) ∈ (Rectangle.mk 2500 3000 2500 3800).tiles ∧
    ¬ tileIntersectsSpec (Rectangle.mk 2500 3000 2500 3800) 2 3 := by
  refine ⟨by norm_num, by norm_num, by decide, ?_⟩
  rintro ⟨x, y, hx1, hx2, hy1, hy2, hdx, hdy⟩
  simp only [Rectangle.mk] at hx1 hx2
  omega

/-- Witness for C1_tiles_exact at the unit rectangle (0,0,1,1), tile (0,0). -/
theorem C1_tiles_exact_witness :
    (((0 : Int), (0 : Int)) ∈ (Rectangle.mk 0 0 1 1).tiles ↔
      tileIntersectsSpec (Rectangle.mk 0 0 1 1) 0 0) ∧
    (Rectangle.from_point_size ⟨2000, 3000⟩ ⟨1500, 800⟩).tiles = [(2, 3), (3, 3)] :=
  C1_tiles_exact ⟨0, 0, 1, 1⟩ (by norm_num) (by norm_num) 0 0

/-- Claim C2: pixel_compare returns (0,0) when current equals desired;
otherwise remaining is desired, and fix is desired when current is
non-zero and 0 when current is zero. -/
theorem C2_pixel_compare (current desired : Nat) :
    (current = desired → pixel_compare current desired = (0, 0)) ∧
    (current ≠ desired →
      (pixel_compare current desired).1 = desired ∧
      (current ≠ 0 → (pixel_compare current desired).2 = desired) ∧
      (current = 0 → (pixel_compare current desired).2 = 0)) := by
  unfold pixel_compare pyAnd
  constructor
  · rintro rfl
    simp
  · intro h
    rw [if_neg (fun hh => h hh.symm)]
    refine ⟨rfl, fun h0 => ?_, fun h0 => ?_⟩
    · simp [h0]
    · simp [h0]

/-- Witness for C2_pixel_compare at current 3, desired 5. -/
theorem C2_pixel_compare_witness :
    (3 : Nat) ≠ 5 ∧ (pixel_compare 3 5).1 = 5 ∧ (pixel_compare 3 5).2 = 5 :=
  ⟨by decide, ((C2_pixel_compare 3 5).2 (by decide)).1,
    ((C2_pixel_compare 3 5).2 (by decide)).2.1 (by decide)⟩

/-- Claim C5 (code bug): the failing input is current data [0], target
data [7] — a one-pixel project whose canvas area is untouched.  The
remaining data equals the untouched target data, so the claim (and the
comment on the source's own first branch) says the project is not
started and no output is written; but the program compares the bytes
remaining_data against the ImagingCore returned by Image.getdata(),
which is always False in CPython, so the not-started return never fires
and run_diff saves the remaining image instead. -/
theorem C5_run_diff_code_bug :
    remaining_of [0] [7] = [7] ∧
    run_diff [0] [7] = DiffOutcome.remainingOnly [7] ∧
    DiffOutcome.remainingOnly [7] ≠ DiffOutcome.notStarted := by
  refine ⟨by decide, by decide, by decide⟩

theorem find_by_key {db : List CacheRow} {key : String}
    (hnd : (db.map CacheRow.filename).Nodup) {row : CacheRow}
    (hmem : row ∈ db) (hkey : row.filename = key) :
    db.find? (fun q => q.filename == key) = some row := by
  induction db with
  | nil => cases hmem
  | cons h t ih =>
    simp only [List.map_cons, List.nodup_cons] at hnd
    rcases List.mem_cons.mp hmem with rfl | hmem2
    · simp [List.find?_cons, hkey]
    · have hne : (h.filename == key) = false := by
        rw [beq_eq_false_iff_ne]
        intro hb
        exact hnd.1 (List.mem_map.mpr ⟨row, hmem2, hkey.trans hb.symm⟩)
      simp only [List.find?_cons, hne]
      exact ih hnd.2 hmem2

/-- Claim C6: project metadata lookup hits iff a row exists for the
filename with stored mtime equal to the current mtime; any mtime
difference, in either direction, is a miss (in particular storing at
mtime 100 and querying at mtime 101 misses), and storing replaces any
prior row for the same filename. -/
theorem C6_metadata_cache (db : List CacheRow) (key : String) (m m2 : Int) (r : Rectangle)
    (hnd : (db.map CacheRow.filename).Nodup) :
    (∀ row ∈ db, row.filename = key →
      metadataLoad db key m = if row.mtime = m then [rectOfRow row] else []) ∧
    ((∀ row ∈ db, row.filename ≠ key) → metadataLoad db key m = []) ∧
    (metadataLoad (metadataStore db key m r) key m2 = if m2 = m then [r] else []) ∧
    (∀ row ∈ metadataStore db key m r, row.filename = key →
      row = ⟨key, m, r.left, r.top, r.right, r.bottom⟩) := by
  refine ⟨?_, ?_, ?_, ?_⟩
  · intro row hmem hkey
    rw [metadataLoad, find_by_key hnd hmem hkey]
    by_cases hm : row.mtime = m
    · simp [hm]
    · simp [hm]
  · intro hnone
    rw [metadataLoad, List.find?_eq_none.mpr (fun row hmem hb => hnone row hmem (eq_of_beq hb))]
  · rw [metadataLoad, metadataStore]
    by_cases hm : m2 = m
    · simp [hm, rectOfRow]
    · simp [hm, Ne.symm hm]
  · intro row hmem hkey
    unfold metadataStore at hmem
    rcases List.mem_cons.mp hmem with rfl | hmem2
    · rfl
    · have := (List.mem_filter.mp hmem2).2
      simp only [bne_iff_ne, ne_eq] at this
      exact absurd hkey this

/-- Claim C3 counterexample: the cache already stores exactly the bytes
[1,2] for tile (4,5); ingesting the byte-identical tile returns true —
not false as the claim states — and touches the stored entry (its
timestamp becomes the new source timestamp 7). -/
theorem C3_counterexample :
    c3cache.store (4, 5) = some ([1, 2], 5) ∧
    (FoundTile.obtain c3cache (4, 5) (some [1, 2]) 7).1 = true ∧
    (FoundTile.obtain c3cache (4, 5) (some [1, 2]) 7).2.store (4, 5) = some ([1, 2], 7) := by
  refine ⟨by decide, by decide, by decide⟩

/-- Claim C3, amended: FoundTile.obtain returns false (leaving the cache
untouched) exactly when quantization fails or the incoming tile is
fully transparent; in every other case — including when the incoming
tile is byte-identical to the stored one — it stores the new tile at
the tile's coordinate, sets its timestamp to the source's timestamp,
leaves other coordinates alone, and returns true; ingesting the same
tile bytes twice leaves the stored tile byte-identical to after the
first call. -/
theorem C3_obtain (cache : TileStore) (tile : Int × Int) (q : Option (List Nat)) (ts : Int) :
    ((FoundTile.obtain cache tile q ts).1 = false ↔
      q = none ∨ ∃ img, q = some img ∧ img.all (fun v => v == 0) = true) ∧
    ((FoundTile.obtain cache tile q ts).1 = false →
      (FoundTile.obtain cache tile q ts).2 = cache) ∧
    (∀ img, q = some img → img.all (fun v => v == 0) = false →
      (FoundTile.obtain cache tile q ts).1 = true ∧
      (FoundTile.obtain cache tile q ts).2.store tile = some (img, ts) ∧
      ∀ t, t ≠ tile → (FoundTile.obtain cache tile q ts).2.store t = cache.store t) ∧
    ((FoundTile.obtain (FoundTile.obtain cache tile q ts).2 tile q ts).2.store tile =
      (FoundTile.obtain cache tile q ts).2.store tile) := by
  rcases q with _ | img0
  · refine ⟨by simp [FoundTile.obtain], fun _ => rfl, ?_, rfl⟩
    intro img h
    cases h
  · by_cases hz : img0.all (fun v => v == 0) = true
    · refine ⟨by simp [FoundTile.obtain, hz] <;> simpa using hz, ?_, ?_, ?_⟩
      · intro _
        simp [FoundTile.obtain, hz]
      · rintro img h hf
        rw [Option.some_inj] at h
        rw [h] at hz
        rw [hz] at hf
        cases hf
      · simp [FoundTile.obtain, hz]
    · rw [Bool.not_eq_true] at hz
      refine ⟨by simp [FoundTile.obtain, hz] <;> simpa using hz, ?_, ?_, ?_⟩
      · intro h
        rw [FoundTile.obtain] at h
        simp only [hz, Bool.false_eq_true, if_false] at h
        cases h
      · rintro img h hf
        rw [Option.some_inj] at h
        subst h
        refine ⟨by simp [FoundTile.obtain, hz], by simp [FoundTile.obtain, hz], ?_⟩
        intro t ht
        simp [FoundTile.obtain, hz, ht]
      · simp [FoundTile.obtain, hz]

/-- Witness for C3_obtain: ingesting [1,2] for tile (4,5) into c3cache at
timestamp 7 returns true and stores ([1,2], 7). -/
theorem C3_obtain_witness :
    (FoundTile.obtain c3cache (4, 5) (some [1, 2]) 7).1 = true ∧
    (FoundTile.obtain c3cache (4, 5) (some [1, 2]) 7).2.store (4, 5) = some ([1, 2], 7) :=
  ⟨((C3_obtain c3cache (4, 5) (some [1, 2]) 7).2.2.1 [1, 2] rfl (by decide)).1,
    ((C3_obtain c3cache (4, 5) (some [1, 2]) 7).2.2.1 [1, 2] rfl (by decide)).2.1⟩

/-- Witness for C6_metadata_cache: empty database, key a, store at mtime
100, query at mtime 101 misses. -/
theorem C6_metadata_cache_witness :
    metadataLoad (metadataStore [] "a" 100 (Rectangle.mk 0 0 1 1)) "a" 101 =
      if (101 : Int) = 100 then [Rectangle.mk 0 0 1 1] else [] :=
  (C6_metadata_cache [] "a" 100 101 (Rectangle.mk 0 0 1 1) (by simp)).2.2.1

theorem shiftLeft_or_eq_add {a b k : Nat} (hb : b < 2 ^ k) : (a <<< k) ||| b = a * 2 ^ k + b := by
  rw [Nat.shiftLeft_eq, Nat.mul_comm a (2 ^ k)]
  exact (Nat.mul_add_lt_is_or hb a).symm

theorem rgbEncode_linear {r g b : Nat} (hg : g < 256) (hb : b < 256) :
    rgbEncode r g b = r * 65536 + g * 256 + b := by
  have e8 : (2 : Nat) ^ 8 = 256 := by norm_num
  have e16 : (2 : Nat) ^ 16 = 65536 := by norm_num
  have h1 : (r <<< 16) ||| (g <<< 8) = r * 65536 + g * 256 := by
    rw [Nat.shiftLeft_eq g, e8]
    have h2 := shiftLeft_or_eq_add (a := r) (k := 16) (b := g * 256) (by omega)
    rwa [e16] at h2
  have h2 : r * 65536 + g * 256 = (r * 256 + g) <<< 8 := by
    rw [Nat.shiftLeft_eq, e8]
    ring
  have h3 := shiftLeft_or_eq_add (a := r * 256 + g) (k := 8) (b := b) (by omega)
  rw [e8] at h3
  rw [rgbEncode, h1, h2, h3, Nat.shiftLeft_eq, e8]

theorem rgbEncode_inj {r1 g1 b1 r2 g2 b2 : Nat} (hg1 : g1 < 256) (hb1 : b1 < 256)
    (hg2 : g2 < 256) (hb2 : b2 < 256)
    (h : rgbEncode r1 g1 b1 = rgbEncode r2 g2 b2) : r1 = r2 ∧ g1 = g2 ∧ b1 = b2 := by
  rw [rgbEncode_linear hg1 hb1, rgbEncode_linear hg2 hb2] at h
  omega

theorem palIdx_sorted : palIdx.Pairwise (fun u v => u < v) := by decide

set_option maxRecDepth 8000 in
theorem pal_values_inj : ∀ p ∈ rgb2pal, ∀ q ∈ rgb2pal, p.2 = q.2 →
    p.1 = q.1 ∨ (p.1 = 0x10AE82 ∧ q.1 = 0x10AEA6) ∨ (p.1 = 0x10AEA6 ∧ q.1 = 0x10AE82) := by
  decide

theorem getD_countP_of_mem {a : List Nat} (hs : a.Pairwise (fun u v => u < v)) {x : Nat}
    (hx : x ∈ a) : a.getD (a.countP (fun v => decide (v < x))) 0 = x := by
  induction a with
  | nil => cases hx
  | cons h t ih =>
    have hhd := (List.pairwise_cons.mp hs).1
    have htl := (List.pairwise_cons.mp hs).2
    rcases List.mem_cons.mp hx with rfl | hx2
    · have hcz : t.countP (fun v => decide (v < x)) = 0 :=
        List.countP_eq_zero.mpr (fun v hv => by
          simp only [decide_eq_true_eq]
          have := hhd v hv
          omega)
      rw [List.countP_cons]
      simp [hcz]
    · have hlt : h < x := hhd x hx2
      have hone : (if (fun v => decide (v < x)) h then 1 else 0) = 1 := by simp [hlt]
      rw [List.countP_cons, hone, List.getD_cons_succ]
      exact ih htl hx2

theorem countP_lt_length_of_mem {a : List Nat} {x : Nat} (hx : x ∈ a) :
    a.countP (fun v => decide (v < x)) < a.length := by
  rcases Nat.lt_or_ge (a.countP (fun v => decide (v < x))) a.length with h | h
  · exact h
  · exfalso
    have heq : a.countP (fun v => decide (v < x)) = a.length :=
      Nat.le_antisymm (List.countP_le_length _) h
    have hall := List.countP_eq_length.mp heq x hx
    simp at hall

theorem getD_mem_of_lt {a : List Nat} {n : Nat} (h : n < a.length) : a.getD n 0 ∈ a := by
  rw [List.getD_eq_getElem?_getD, List.getElem?_eq_getElem h]
  simpa using List.getElem_mem h

theorem lookup_some_mem {α β : Type} [BEq α] [LawfulBEq α] {l : List (α × β)} {k : α} {v : β} (h : l.lookup k = some v) :
    (k, v) ∈ l := by
  induction l with
  | nil => cases h
  | cons p t ih =>
    obtain ⟨k2, v2⟩ := p
    cases hbeq : (k == k2) with
    | false =>
      rw [List.lookup_cons] at h
      simp only [hbeq] at h
      exact List.mem_cons_of_mem _ (ih h)
    | true =>
      rw [List.lookup_cons] at h
      simp only [hbeq] at h
      have hk : k = k2 := eq_of_beq hbeq
      have hv : v2 = v := Option.some.inj h
      rw [← hk, hv]
      exact List.mem_cons_self _ _

theorem lookup_none_iff_not_mem_keys {α β : Type} [BEq α] [LawfulBEq α] {l : List (α × β)} {k : α} :
    l.lookup k = none ↔ k ∉ l.map Prod.fst := by
  induction l with
  | nil => simp
  | cons p t ih =>
    obtain ⟨k2, v2⟩ := p
    cases hbeq : (k == k2) with
    | false =>
      have hne : k ≠ k2 := by
        intro he
        rw [he] at hbeq
        simp at hbeq
      rw [List.lookup_cons]
      simp [hbeq, hne, ih]
    | true =>
      have he : k = k2 := eq_of_beq hbeq
      rw [List.lookup_cons]
      simp [hbeq, he]

theorem lookup_cons_self {α β : Type} [BEq α] [LawfulBEq α] {t : List (α × β)} {k : α} {v : β} :
    ((k, v) :: t).lookup k = some v := by
  rw [List.lookup_cons]
  simp

theorem lookup_cons_ne {α β : Type} [BEq α] [LawfulBEq α] {t : List (α × β)} {k k2 : α} {v : β} (hne : k2 ≠ k) :
    ((k, v) :: t).lookup k2 = t.lookup k2 := by
  rw [List.lookup_cons]
  have : (k2 == k) = false := by simp [hne]
  simp only [this]

theorem lookup_filter_ne {α β : Type} [BEq α] [LawfulBEq α] {l : List (α × β)} {k k2 : α} (hne : k2 ≠ k) :
    (l.filter (fun e => e.1 != k)).lookup k2 = l.lookup k2 := by
  induction l with
  | nil => simp
  | cons p t ih =>
    obtain ⟨k3, v3⟩ := p
    by_cases hk3 : k3 = k
    · subst hk3
      rw [List.filter_cons_of_neg (by simp), lookup_cons_ne hne, ih]
    · rw [List.filter_cons_of_pos (by simp [hk3])]
      by_cases hk23 : k2 = k3
      · subst hk23
        rw [lookup_cons_self, lookup_cons_self]
      · rw [lookup_cons_ne hk23, lookup_cons_ne hk23, ih]

theorem lookup_filter_self {α β : Type} [BEq α] [LawfulBEq α] {l : List (α × β)} {k : α} :
    (l.filter (fun e => e.1 != k)).lookup k = none := by
  rw [lookup_none_iff_not_mem_keys]
  intro hmem
  obtain ⟨e, hmem2, he⟩ := List.mem_map.mp hmem
  have := (List.mem_filter.mp hmem2).2
  rw [he] at this
  simp at this


theorem palValues_getD {n : Nat} (h : n < palIdx.length) :
    palValues.getD n 0 = (rgb2pal.lookup (palIdx.getD n 0)).getD 0 := by
  rw [palValues, List.getD_eq_getElem?_getD, List.getElem?_map, List.getElem?_eq_getElem h,
    List.getD_eq_getElem?_getD, List.getElem?_eq_getElem h]
  rfl

theorem pal_lookup_of_some {r g b a i : Nat} (ha : a ≠ 0)
    (h : rgb2pal.lookup (rgbEncode r g b) = some i) :
    Palette.lookup (r, g, b, a) = Except.ok i := by
  have hkeys : rgbEncode r g b ∈ rgb2pal.map Prod.fst :=
    List.mem_map.mpr ⟨(rgbEncode r g b, i), lookup_some_mem h, rfl⟩
  have hmem : rgbEncode r g b ∈ palIdx := (List.perm_insertionSort _ _).mem_iff.mpr hkeys
  have hlt : bisect_left palIdx (rgbEncode r g b) < palIdx.length := countP_lt_length_of_mem hmem
  have hget : palIdx.getD (bisect_left palIdx (rgbEncode r g b)) 0 = rgbEncode r g b :=
    getD_countP_of_mem palIdx_sorted hmem
  simp only [Palette.lookup]
  rw [if_neg ha, if_neg (by push_neg; exact ⟨Nat.ne_of_lt hlt, hget⟩)]
  rw [palValues_getD hlt, hget, h]
  rfl

theorem pal_lookup_of_none {r g b a : Nat} (ha : a ≠ 0)
    (h : rgb2pal.lookup (rgbEncode r g b) = none) :
    Palette.lookup (r, g, b, a) = Except.error (rgbEncode r g b) := by
  have hnk : rgbEncode r g b ∉ rgb2pal.map Prod.fst := lookup_none_iff_not_mem_keys.mp h
  have hnm : rgbEncode r g b ∉ palIdx :=
    fun hm => hnk ((List.perm_insertionSort _ _).mem_iff.mp hm)
  have hcond : bisect_left palIdx (rgbEncode r g b) = palIdx.length ∨
      palIdx.getD (bisect_left palIdx (rgbEncode r g b)) 0 ≠ rgbEncode r g b := by
    by_cases hp : bisect_left palIdx (rgbEncode r g b) = palIdx.length
    · exact Or.inl hp
    · refine Or.inr (fun he => hnm ?_)
      have hlt : bisect_left palIdx (rgbEncode r g b) < palIdx.length :=
        Nat.lt_of_le_of_ne (List.countP_le_length _) hp
      exact he ▸ getD_mem_of_lt hlt
  simp only [Palette.lookup]
  rw [if_neg ha, if_pos hcond]

theorem pal_lookup_ok_inv {r g b a i : Nat} (ha : a ≠ 0)
    (h : Palette.lookup (r, g, b, a) = Except.ok i) :
    rgb2pal.lookup (rgbEncode r g b) = some i := by
  cases hl : rgb2pal.lookup (rgbEncode r g b) with
  | none =>
    rw [pal_lookup_of_none ha hl] at h
    cases h
  | some v =>
    rw [pal_lookup_of_some ha hl] at h
    injection h with h2
    rw [← h2]

theorem exceptBind_error {ε α β : Type} (e : ε) (f : α → Except ε β) :
    (Except.error e >>= f : Except ε β) = Except.error e := rfl

theorem exceptBind_ok {ε α β : Type} (a : α) (f : α → Except ε β) :
    (Except.ok a >>= f : Except ε β) = f a := rfl

theorem ensureQuantize_error {pixels : List (Nat × Nat × Nat × Nat)}
    {px : Nat × Nat × Nat × Nat} {e : Nat}
    (hmem : px ∈ pixels) (he : Palette.lookup px = Except.error e) :
    ∃ e2, Palette.ensureQuantize pixels = Except.error e2 := by
  induction pixels with
  | nil => cases hmem
  | cons h t ih =>
    rw [Palette.ensureQuantize, List.mapM_cons]
    cases hl : Palette.lookup h with
    | error e3 => exact ⟨e3, by simp only [hl, exceptBind_error]⟩
    | ok v =>
      rcases List.mem_cons.mp hmem with rfl | hmem2
      · rw [hl] at he
        cases he
      · obtain ⟨e2, h2⟩ := ih hmem2
        rw [Palette.ensureQuantize] at h2
        exact ⟨e2, by simp only [hl, exceptBind_ok, h2, exceptBind_error]⟩

/-- Claim C4: Palette.lookup maps any pixel with alpha 0 to index 0
regardless of RGB; with non-zero alpha it returns the table's index for
the packed RGB value (the table being rgb2pal, which includes the fixed
alias substitution), raises ColorNotInPalette carrying the offending
color when the value is not in the table, and any such error aborts the
whole quantization of Palette.ensure without substituting a
placeholder. -/
theorem C4_palette_lookup (r g b a : Nat) :
    (a = 0 → Palette.lookup (r, g, b, a) = Except.ok 0) ∧
    (a ≠ 0 → ∀ i, rgb2pal.lookup (rgbEncode r g b) = some i →
      Palette.lookup (r, g, b, a) = Except.ok i) ∧
    (a ≠ 0 → rgb2pal.lookup (rgbEncode r g b) = none →
      Palette.lookup (r, g, b, a) = Except.error (rgbEncode r g b)) ∧
    (∀ pixels : List (Nat × Nat × Nat × Nat), ∀ px ∈ pixels, ∀ e,
      Palette.lookup px = Except.error e →
      ∃ e2, Palette.ensureQuantize pixels = Except.error e2) := by
  refine ⟨fun h0 => by simp [Palette.lookup, h0], fun ha i h => pal_lookup_of_some ha h,
    fun ha h => pal_lookup_of_none ha h, fun pixels px hmem e he => ensureQuantize_error hmem he⟩

/-- Witness for C4_palette_lookup: the opaque pixel (0x60, 0x00, 0x18)
quantizes to palette index 6. -/
theorem C4_palette_lookup_witness :
    (255 : Nat) ≠ 0 ∧ Palette.lookup (0x60, 0, 0x18, 255) = Except.ok 6 :=
  ⟨by decide, (C4_palette_lookup 0x60 0 0x18 255).2.1 (by decide) 6 (by decide)⟩

/-- Claim C8 counterexample: the alias color 0x10AE82 and the palette
color 0x10AEA6 are different RGB triples, both resolve with non-zero
alpha, and both map to index 16. -/
theorem C8_counterexample :
    Palette.lookup (0x10, 0xAE, 0x82, 255) = Except.ok 16 ∧
    Palette.lookup (0x10, 0xAE, 0xA6, 255) = Except.ok 16 ∧
    (0x82 : Nat) ≠ 0xA6 := by
  refine ⟨by rfl, by rfl, by decide⟩

/-- Claim C8, amended: the RGB-to-index mapping is injective except for
the single historical alias — for any two byte triples that both
resolve via Palette.lookup with non-zero alpha, equal indices imply
equal triples, or the two packed values are the alias pair
(0x10AE82, 0x10AEA6) in one of the two orders. -/
theorem C8_palette_injective (r1 g1 b1 a1 r2 g2 b2 a2 i : Nat)
    (hr1 : r1 < 256) (hg1 : g1 < 256) (hb1 : b1 < 256)
    (hr2 : r2 < 256) (hg2 : g2 < 256) (hb2 : b2 < 256)
    (ha1 : a1 ≠ 0) (ha2 : a2 ≠ 0)
    (h1 : Palette.lookup (r1, g1, b1, a1) = Except.ok i)
    (h2 : Palette.lookup (r2, g2, b2, a2) = Except.ok i) :
    (r1 = r2 ∧ g1 = g2 ∧ b1 = b2) ∨
    (rgbEncode r1 g1 b1 = 0x10AE82 ∧ rgbEncode r2 g2 b2 = 0x10AEA6) ∨
    (rgbEncode r1 g1 b1 = 0x10AEA6 ∧ rgbEncode r2 g2 b2 = 0x10AE82) := by
  have hl1 := pal_lookup_ok_inv ha1 h1
  have hl2 := pal_lookup_ok_inv ha2 h2
  have hinj := pal_values_inj (rgbEncode r1 g1 b1, i) (lookup_some_mem hl1)
    (rgbEncode r2 g2 b2, i) (lookup_some_mem hl2) rfl
  rcases hinj with he | hal | hal
  · exact Or.inl (rgbEncode_inj hg1 hb1 hg2 hb2 he)
  · exact Or.inr (Or.inl hal)
  · exact Or.inr (Or.inr hal)

/-- Witness for C8_palette_injective: black (0x000000) against itself at
index 1. -/
theorem C8_palette_injective_witness :
    Palette.lookup (0, 0, 0, 255) = Except.ok 1 ∧
    (((0 : Nat) = 0 ∧ (0 : Nat) = 0 ∧ (0 : Nat) = 0) ∨
      (rgbEncode 0 0 0 = 0x10AE82 ∧ rgbEncode 0 0 0 = 0x10AEA6) ∨
      (rgbEncode 0 0 0 = 0x10AEA6 ∧ rgbEncode 0 0 0 = 0x10AE82)) :=
  ⟨by rfl, C8_palette_injective 0 0 0 255 0 0 0 255 1 (by decide) (by decide) (by decide)
    (by decide) (by decide) (by decide) (by decide) (by decide) (by rfl) (by rfl)⟩

theorem sep_not_digit {ch : Char} (h : isSepChar ch = true) : ch.isDigit = false := by
  rw [isSepChar, Bool.or_eq_true, Bool.or_eq_true] at h
  rcases h with (h | h) | h
  all_goals (obtain rfl := eq_of_beq h; decide)

theorem all_takeWhile {p : Char → Bool} {l : List Char} : ∀ x ∈ l.takeWhile p, p x = true := by
  induction l with
  | nil => simp
  | cons h t ih =>
    by_cases hp : p h
    · rw [List.takeWhile_cons_of_pos hp]
      intro x hx
      rcases List.mem_cons.mp hx with rfl | hx2
      · exact hp
      · exact ih x hx2
    · rw [List.takeWhile_cons_of_neg hp]
      simp

theorem takeWhile_all_append {p : Char → Bool} {l : List Char} (hall : ∀ x ∈ l, p x = true)
    {y : Char} (hy : p y = false) (r : List Char) :
    (l ++ y :: r).takeWhile p = l ∧ (l ++ y :: r).dropWhile p = y :: r := by
  induction l with
  | nil =>
    constructor
    · simp only [List.nil_append]
      exact List.takeWhile_cons_of_neg (by simp [hy])
    · simp only [List.nil_append]
      exact List.dropWhile_cons_of_neg (by simp [hy])
  | cons hh tt ih =>
    have hh1 : p hh = true := hall hh (List.mem_cons_self _ _)
    have ih2 := ih (fun x hx => hall x (List.mem_cons_of_mem _ hx))
    constructor
    · rw [List.cons_append, List.takeWhile_cons_of_pos hh1, ih2.1]
    · rw [List.cons_append, List.dropWhile_cons_of_pos hh1, ih2.2]

theorem parseNumFromEnd_append {ds : List Char} (hne : ds ≠ [])
    (hall : ∀ x ∈ ds, x.isDigit = true) {s : Char} (hs : isSepChar s = true) (r : List Char) :
    parseNumFromEnd (ds ++ s :: r) = some (digitVal ds.reverse, r) := by
  have h := takeWhile_all_append hall (sep_not_digit hs) r
  rw [parseNumFromEnd, h.1, h.2]
  simp only [hs, if_true]
  rw [if_neg (by simp [hne])]

theorem parseNumFromEnd_some_inv {rl : List Char} {v : Nat} {rest : List Char}
    (h : parseNumFromEnd rl = some (v, rest)) :
    ∃ ds s, rl = ds ++ s :: rest ∧ ds ≠ [] ∧ (∀ x ∈ ds, x.isDigit = true) ∧
      isSepChar s = true ∧ v = digitVal ds.reverse := by
  rw [parseNumFromEnd] at h
  by_cases hemp : (rl.takeWhile Char.isDigit).isEmpty
  · rw [if_pos hemp] at h
    cases h
  · rw [if_neg hemp] at h
    cases hdw : rl.dropWhile Char.isDigit with
    | nil =>
      rw [hdw] at h
      cases h
    | cons s rest2 =>
      rw [hdw] at h
      dsimp only at h
      by_cases hs : isSepChar s
      · rw [if_pos hs] at h
        injection h with h2
        have hv : digitVal (rl.takeWhile Char.isDigit).reverse = v := congrArg Prod.fst h2
        have hr : rest2 = rest := congrArg Prod.snd h2
        refine ⟨rl.takeWhile Char.isDigit, s, ?_, ?_, all_takeWhile, hs, hv.symm⟩
        · conv_lhs => rw [← List.takeWhile_append_dropWhile (p := Char.isDigit) (l := rl)]
          rw [hdw, hr]
        · intro he
          rw [he] at hemp
          exact hemp rfl
      · rw [if_neg hs] at h
        cases h

theorem matchCoords_complete {pre d1 d2 d3 d4 : List Char} {s0 s1 s2 s3 p n g : Char}
    (h1 : IsDigitRun d1) (h2 : IsDigitRun d2) (h3 : IsDigitRun d3) (h4 : IsDigitRun d4)
    (hs0 : isSepChar s0 = true) (hs1 : isSepChar s1 = true) (hs2 : isSepChar s2 = true)
    (hs3 : isSepChar s3 = true) (hp : p.toLower = 'p') (hn : n.toLower = 'n')
    (hg : g.toLower = 'g') :
    matchCoords (pre ++ [s0] ++ d1 ++ [s1] ++ d2 ++ [s2] ++ d3 ++ [s3] ++ d4 ++ ['.', p, n, g]) =
      some (digitVal d1, digitVal d2, digitVal d3, digitVal d4) := by
  have hrev : (pre ++ [s0] ++ d1 ++ [s1] ++ d2 ++ [s2] ++ d3 ++ [s3] ++ d4 ++
      ['.', p, n, g]).reverse =
      g :: n :: p :: '.' :: (d4.reverse ++ s3 :: (d3.reverse ++ s2 :: (d2.reverse ++ s1 ::
        (d1.reverse ++ s0 :: pre.reverse)))) := by
    simp [List.reverse_append]
  rw [matchCoords, hrev]
  dsimp only
  rw [if_pos (by simp [hp, hn, hg])]
  rw [parseNumFromEnd_append (by simp [h4.1]) (by intro x hx; exact h4.2 x (List.mem_reverse.mp hx)) hs3]
  dsimp only
  rw [parseNumFromEnd_append (by simp [h3.1]) (by intro x hx; exact h3.2 x (List.mem_reverse.mp hx)) hs2]
  dsimp only
  rw [parseNumFromEnd_append (by simp [h2.1]) (by intro x hx; exact h2.2 x (List.mem_reverse.mp hx)) hs1]
  dsimp only
  rw [parseNumFromEnd_append (by simp [h1.1]) (by intro x hx; exact h1.2 x (List.mem_reverse.mp hx)) hs0]
  dsimp only
  simp [List.reverse_reverse]

theorem matchCoords_sound {name : List Char} {a b c d : Nat}
    (h : matchCoords name = some (a, b, c, d)) :
    ∃ pre s0 d1 s1 d2 s2 d3 s3 d4 p n g,
      name = pre ++ [s0] ++ d1 ++ [s1] ++ d2 ++ [s2] ++ d3 ++ [s3] ++ d4 ++ ['.', p, n, g] ∧
      IsDigitRun d1 ∧ IsDigitRun d2 ∧ IsDigitRun d3 ∧ IsDigitRun d4 ∧
      isSepChar s0 = true ∧ isSepChar s1 = true ∧ isSepChar s2 = true ∧ isSepChar s3 = true ∧
      p.toLower = 'p' ∧ n.toLower = 'n' ∧ g.toLower = 'g' ∧
      a = digitVal d1 ∧ b = digitVal d2 ∧ c = digitVal d3 ∧ d = digitVal d4 := by
  rw [matchCoords] at h
  split at h
  case h_2 => cases h
  case h_1 g0 n0 p0 c0 rest heq =>
    rw [show (c0 == '.' && p0.toLower == 'p' && n0.toLower == 'n' && g0.toLower == 'g') =
        (c0 == '.' && p0.toLower == 'p' && n0.toLower == 'n' && g0.toLower == 'g') from rfl] at h
    by_cases hguard : (c0 == '.' && p0.toLower == 'p' && n0.toLower == 'n' && g0.toLower == 'g') = true
    case neg =>
      rw [if_neg hguard] at h
      cases h
    case pos =>
      rw [if_pos hguard] at h
      have hc0 : c0 = '.' := eq_of_beq (by
        have := hguard
        simp only [Bool.and_eq_true] at this
        exact this.1.1.1)
      simp only [Bool.and_eq_true, beq_iff_eq] at hguard
      obtain ⟨⟨⟨-, hp0⟩, hn0⟩, hg0⟩ := hguard
      cases hp4 : parseNumFromEnd rest with
      | none => rw [hp4] at h; cases h
      | some v4 =>
        obtain ⟨d4v, r1⟩ := v4
        rw [hp4] at h
        dsimp only at h
        cases hp3 : parseNumFromEnd r1 with
        | none => rw [hp3] at h; cases h
        | some v3 =>
          obtain ⟨d3v, r2⟩ := v3
          rw [hp3] at h
          dsimp only at h
          cases hp2 : parseNumFromEnd r2 with
          | none => rw [hp2] at h; cases h
          | some v2 =>
            obtain ⟨d2v, r3⟩ := v2
            rw [hp2] at h
            dsimp only at h
            cases hp1 : parseNumFromEnd r3 with
            | none => rw [hp1] at h; cases h
            | some v1 =>
              obtain ⟨d1v, r4⟩ := v1
              rw [hp1] at h
              dsimp only at h
              injection h with hq
              obtain ⟨ha, hb, hc, hd⟩ : d1v = a ∧ d2v = b ∧ d3v = c ∧ d4v = d := by
                have h1 := congrArg Prod.fst hq
                have h2 := congrArg (fun q => q.2.1) hq
                have h3 := congrArg (fun q => q.2.2.1) hq
                have h4 := congrArg (fun q => q.2.2.2) hq
                exact ⟨h1, h2, h3, h4⟩
              obtain ⟨ds4, s4, hr4, hne4, hall4, hsep4, hv4⟩ := parseNumFromEnd_some_inv hp4
              obtain ⟨ds3, s3, hr3, hne3, hall3, hsep3, hv3⟩ := parseNumFromEnd_some_inv hp3
              obtain ⟨ds2, s2, hr2, hne2, hall2, hsep2, hv2⟩ := parseNumFromEnd_some_inv hp2
              obtain ⟨ds1, s1, hr1, hne1, hall1, hsep1, hv1⟩ := parseNumFromEnd_some_inv hp1
              refine ⟨r4.reverse, s1, ds1.reverse, s2, ds2.reverse, s3, ds3.reverse, s4,
                ds4.reverse, p0, n0, g0, ?_, ?_, ?_, ?_, ?_, hsep1, hsep2, hsep3, hsep4,
                hp0, hn0, hg0, ?_, ?_, ?_, ?_⟩
              · have hname : name = (g0 :: n0 :: p0 :: c0 :: rest).reverse := by
                  rw [← heq, List.reverse_reverse]
                rw [hname, hc0, hr4, hr3, hr2, hr1]
                simp [List.reverse_append]
              · exact ⟨by simp [hne1], fun x hx => hall1 x (List.mem_reverse.mp hx)⟩
              · exact ⟨by simp [hne2], fun x hx => hall2 x (List.mem_reverse.mp hx)⟩
              · exact ⟨by simp [hne3], fun x hx => hall3 x (List.mem_reverse.mp hx)⟩
              · exact ⟨by simp [hne4], fun x hx => hall4 x (List.mem_reverse.mp hx)⟩
              · rw [← ha, hv1]
              · rw [← hb, hv2]
              · rw [← hc, hv3]
              · rw [← hd, hv4]

/-- Claim C9, amended: matchCoords recognizes a filename exactly when it
contains four runs of digits, each preceded by one separator (-, _ or
space) — including one before the first run — immediately before the
.png extension (case-insensitive), and the four integers are the match
groups read left to right; Point.from4 then places the top-left corner
at (tileX*1000+pixelX, tileY*1000+pixelY).  (The original claim did not
require the separator before the first integer; the regular expression
does, see the counterexample.) -/
theorem C9_filename_coords (name : List Char) (a b c d : Nat) :
    (matchCoords name = some (a, b, c, d) ↔
      ∃ pre s0 d1 s1 d2 s2 d3 s3 d4 p n g,
        name = pre ++ [s0] ++ d1 ++ [s1] ++ d2 ++ [s2] ++ d3 ++ [s3] ++ d4 ++ ['.', p, n, g] ∧
        IsDigitRun d1 ∧ IsDigitRun d2 ∧ IsDigitRun d3 ∧ IsDigitRun d4 ∧
        isSepChar s0 = true ∧ isSepChar s1 = true ∧ isSepChar s2 = true ∧ isSepChar s3 = true ∧
        p.toLower = 'p' ∧ n.toLower = 'n' ∧ g.toLower = 'g' ∧
        a = digitVal d1 ∧ b = digitVal d2 ∧ c = digitVal d3 ∧ d = digitVal d4) ∧
    (∀ tx ty px py : Int, 0 ≤ tx → 0 ≤ ty → 0 ≤ px → 0 ≤ py → px < 1000 → py < 1000 →
      Point.from4 tx ty px py = some ⟨tx * 1000 + px, ty * 1000 + py⟩) := by
  refine ⟨⟨fun h => matchCoords_sound h, fun h => ?_⟩, ?_⟩
  · obtain ⟨pre, s0, d1, s1, d2, s2, d3, s3, d4, p, n, g, hnm, h1, h2, h3, h4, hs0, hs1,
      hs2, hs3, hp, hn, hg, ha, hb, hc, hd⟩ := h
    rw [hnm, ha, hb, hc, hd]
    exact matchCoords_complete h1 h2 h3 h4 hs0 hs1 hs2 hs3 hp hn hg
  · intro tx ty px py htx hty hpx hpy hpx2 hpy2
    rw [Point.from4, if_pos ⟨htx, hty, hpx, hpy, hpx2, hpy2⟩]

/-- Claim C9 counterexample: the filename 1_2_3_4.png contains four
integers separated by underscores immediately before the .png
extension, so the claim says it is recognized; the code's pattern
requires a further separator before the first integer and rejects it. -/
theorem C9_counterexample :
    specHasCoords (String.data "1_2_3_4.png") ∧
    matchCoords (String.data "1_2_3_4.png") = none := by
  constructor
  · exact ⟨[], ['1'], '_', ['2'], '_', ['3'], '_', ['4'], 'p', 'n', 'g', by decide,
      ⟨by decide, by decide⟩, ⟨by decide, by decide⟩, ⟨by decide, by decide⟩,
      ⟨by decide, by decide⟩, by decide, by decide, by decide, by decide, by decide, by decide⟩
  · rfl

/-- Witness for C9_filename_coords: the filename a-1-2-3-4.png matches
with groups (1,2,3,4), and from4 of (1,2,3,4) is the point (1003, 2004). -/
theorem C9_filename_coords_witness :
    matchCoords (String.data "a-1-2-3-4.png") = some (1, 2, 3, 4) ∧
    Point.from4 1 2 3 4 = some ⟨1 * 1000 + 3, 2 * 1000 + 4⟩ :=
  ⟨(C9_filename_coords (String.data "a-1-2-3-4.png") 1 2 3 4).1.mpr
      ⟨['a'], '-', ['1'], '-', ['2'], '-', ['3'], '-', ['4'], 'p', 'n', 'g', by decide,
        ⟨by decide, by decide⟩, ⟨by decide, by decide⟩, ⟨by decide, by decide⟩,
        ⟨by decide, by decide⟩, by decide, by decide, by decide, by decide, by decide,
        by decide, by decide, by decide, by decide, by decide, by decide⟩,
    (C9_filename_coords (String.data "a-1-2-3-4.png") 1 2 3 4).2 1 2 3 4 (by decide)
      (by decide) (by decide) (by decide) (by decide) (by decide)⟩

theorem intRange_nodup (a b : Int) : (intRange a b).Nodup := by
  rw [intRange]
  refine List.Nodup.map ?_ (List.nodup_range _)
  intro x y hxy
  dsimp only at hxy
  omega

theorem tiles_nodup (r : Rectangle) : r.tiles.Nodup := by
  rw [Rectangle.tiles, List.nodup_flatMap]
  constructor
  · intro tx _
    refine List.Nodup.map ?_ (intRange_nodup _ _)
    intro x y hxy
    dsimp only at hxy
    injection hxy
  · refine List.Pairwise.imp ?_ (intRange_nodup _ _)
    intro tx1 tx2 hne
    intro x hx1 hx2
    obtain ⟨y1, _, rfl⟩ := List.mem_map.mp hx1
    obtain ⟨y2, _, h2⟩ := List.mem_map.mp hx2
    exact hne (congrArg Prod.fst h2.symm)



-- lookup after setTile
theorem lookup_setTile_self {idx : List (Tile × List String)} {t : Tile} {ps : List String}
    (hmem : t ∈ idx.map Prod.fst) : (setTile idx t ps).lookup t = some ps := by
  induction idx with
  | nil => simp at hmem
  | cons e rest ih =>
    by_cases he : e.1 = t
    · rw [setTile, List.map_cons, if_pos (by simp [he])]
      exact List.lookup_cons.trans (by simp)
    · rw [setTile, List.map_cons, if_neg (by simp [he])]
      have hmem2 : t ∈ rest.map Prod.fst := by
        rcases List.mem_map.mp hmem with ⟨e2, he2, hfst⟩
        rcases List.mem_cons.mp he2 with rfl | hrest
        · exact absurd hfst he
        · exact List.mem_map.mpr ⟨e2, hrest, hfst⟩
      rw [List.lookup_cons]
      have : (t == e.1) = false := by simp [Ne.symm he]  -- t ≠ e.1
      simp only [this]
      exact ih hmem2

theorem lookup_setTile_ne {idx : List (Tile × List String)} {t t2 : Tile} {ps : List String}
    (hne : t2 ≠ t) : (setTile idx t ps).lookup t2 = idx.lookup t2 := by
  induction idx with
  | nil => rfl
  | cons e rest ih =>
    by_cases he : e.1 = t
    · rw [setTile, List.map_cons, if_pos (by simp [he])]
      rw [List.lookup_cons, List.lookup_cons]
      have h1 : (t2 == t) = false := by simp [hne]
      have h2 : (t2 == e.1) = false := by simp [he ▸ hne]
      simp only [h1, h2]
      exact ih
    · rw [setTile, List.map_cons, if_neg (by simp [he])]
      rw [List.lookup_cons, List.lookup_cons]
      cases hbeq : (t2 == e.1) with
      | true => rfl
      | false => exact ih

theorem setTile_map_fst {idx : List (Tile × List String)} {t : Tile} {ps : List String} :
    (setTile idx t ps).map Prod.fst = idx.map Prod.fst := by
  induction idx with
  | nil => rfl
  | cons e rest ih =>
    by_cases he : e.1 = t
    · rw [setTile, List.map_cons, if_pos (by simp [he])]
      rw [List.map_cons, List.map_cons]
      rw [setTile] at ih
      rw [ih, he]
    · rw [setTile, List.map_cons, if_neg (by simp [he])]
      rw [List.map_cons, List.map_cons]
      rw [setTile] at ih
      rw [ih]

theorem setTile_wf {idx : List (Tile × List String)} {t : Tile} {ps : List String}
    (hwf : TilesWF idx) (hps : ps ≠ []) : TilesWF (setTile idx t ps) := by
  refine ⟨by rw [setTile_map_fst]; exact hwf.1, ?_⟩
  intro e hmem
  rw [setTile, List.mem_map] at hmem
  obtain ⟨e2, he2, hfe⟩ := hmem
  by_cases h : e2.1 = t
  · rw [if_pos (by simp [h])] at hfe
    rw [← hfe]
    exact hps
  · rw [if_neg (by simp [h])] at hfe
    rw [← hfe]
    exact hwf.2 e2 he2


theorem mem_lookupTile {idx : List (Tile × List String)} {t : Tile} {pa : String} :
    pa ∈ lookupTile idx t ↔ ∃ ps, idx.lookup t = some ps ∧ pa ∈ ps := by
  rw [lookupTile]
  cases h : idx.lookup t with
  | none => simp
  | some ps => simp

theorem lookupTile_discard {idx : List (Tile × List String)} {t t2 : Tile} {pa : String}
    (hwf : TilesWF idx) :
    lookupTile (discardProj idx t pa) t2 =
      if t2 = t then (lookupTile idx t).filter (fun q => q != pa) else lookupTile idx t2 := by
  rw [discardProj]
  cases hl : idx.lookup t with
  | none =>
    dsimp only
    by_cases ht : t2 = t
    · subst ht
      rw [if_pos rfl, lookupTile, hl]
      rfl
    · rw [if_neg ht]
  | some ps =>
    have hne : ps ≠ [] := hwf.2 (t, ps) (lookup_some_mem hl)
    dsimp only
    rw [if_neg (fun h => hne (List.isEmpty_iff.mp h))]
    by_cases hps2 : (ps.filter (fun q => q != pa)).isEmpty = true
    · rw [if_pos hps2]
      by_cases ht : t2 = t
      · subst ht
        rw [if_pos rfl, lookupTile, lookup_filter_self, lookupTile, hl]
        simp only [Option.getD_none, Option.getD_some]
        exact (List.isEmpty_iff.mp hps2).symm
      · rw [if_neg ht, lookupTile, lookup_filter_ne ht, lookupTile]
    · rw [if_neg hps2]
      by_cases ht : t2 = t
      · subst ht
        have hmem : t2 ∈ idx.map Prod.fst :=
          List.mem_map.mpr ⟨(t2, ps), lookup_some_mem hl, rfl⟩
        rw [if_pos rfl, lookupTile, lookup_setTile_self hmem, lookupTile, hl]
        rfl
      · rw [if_neg ht, lookupTile, lookup_setTile_ne ht, lookupTile]

theorem discard_wf {idx : List (Tile × List String)} {t : Tile} {pa : String}
    (hwf : TilesWF idx) : TilesWF (discardProj idx t pa) := by
  rw [discardProj]
  cases hl : idx.lookup t with
  | none => exact hwf
  | some ps =>
    dsimp only
    by_cases hemp : ps.isEmpty = true
    · rw [if_pos hemp]
      exact hwf
    · rw [if_neg hemp]
      by_cases hps2 : (ps.filter (fun q => q != pa)).isEmpty = true
      · rw [if_pos hps2]
        constructor
        · have hsub : List.Sublist ((idx.filter (fun e => e.1 != t)).map Prod.fst)
              (idx.map Prod.fst) := (List.filter_sublist _).map _
          exact hwf.1.sublist hsub
        · intro e hmem
          exact hwf.2 e (List.mem_filter.mp hmem).1
      · rw [if_neg hps2]
        refine setTile_wf hwf ?_
        intro he
        rw [he] at hps2
        exact hps2 rfl

theorem lookupTile_add {idx : List (Tile × List String)} {t t2 : Tile} {pa : String} :
    lookupTile (addProj idx t pa) t2 =
      if t2 = t then
        (if pa ∈ lookupTile idx t then lookupTile idx t else pa :: lookupTile idx t)
      else lookupTile idx t2 := by
  rw [addProj]
  cases hl : idx.lookup t with
  | none =>
    dsimp only
    by_cases ht : t2 = t
    · subst ht
      rw [if_pos rfl, lookupTile, lookup_cons_self, lookupTile, hl]
      simp
    · rw [if_neg ht, lookupTile, lookup_cons_ne ht, lookupTile]
  | some ps =>
    dsimp only
    have hmem : t ∈ idx.map Prod.fst :=
      List.mem_map.mpr ⟨(t, ps), lookup_some_mem hl, rfl⟩
    by_cases ht : t2 = t
    · subst ht
      rw [if_pos rfl, lookupTile, lookup_setTile_self hmem, lookupTile, hl]
      rfl
    · rw [if_neg ht, lookupTile, lookup_setTile_ne ht, lookupTile]

theorem add_wf {idx : List (Tile × List String)} {t : Tile} {pa : String}
    (hwf : TilesWF idx) : TilesWF (addProj idx t pa) := by
  rw [addProj]
  cases hl : idx.lookup t with
  | none =>
    constructor
    · rw [List.map_cons]
      exact List.nodup_cons.mpr ⟨lookup_none_iff_not_mem_keys.mp hl, hwf.1⟩
    · intro e hmem
      rcases List.mem_cons.mp hmem with rfl | hmem2
      · simp
      · exact hwf.2 e hmem2
  | some ps =>
    refine setTile_wf hwf ?_
    by_cases hin : pa ∈ ps
    · rw [if_pos hin]
      exact hwf.2 (t, ps) (lookup_some_mem hl)
    · rw [if_neg hin]
      simp


theorem discardFold_wf {ts : List Tile} {idx : List (Tile × List String)} {pa : String}
    (hwf : TilesWF idx) : TilesWF (ts.foldl (fun i t => discardProj i t pa) idx) := by
  induction ts generalizing idx with
  | nil => exact hwf
  | cons h t2 ih => exact ih (discard_wf hwf)

theorem addFold_wf {ts : List Tile} {idx : List (Tile × List String)} {pa : String}
    (hwf : TilesWF idx) : TilesWF (ts.foldl (fun i t => addProj i t pa) idx) := by
  induction ts generalizing idx with
  | nil => exact hwf
  | cons h t2 ih => exact ih (add_wf hwf)

theorem lookupTile_discardFold {ts : List Tile} (hnd : ts.Nodup)
    {idx : List (Tile × List String)} (hwf : TilesWF idx) {pa : String} {t2 : Tile} :
    lookupTile (ts.foldl (fun i t => discardProj i t pa) idx) t2 =
      if t2 ∈ ts then (lookupTile idx t2).filter (fun q => q != pa) else lookupTile idx t2 := by
  induction ts generalizing idx with
  | nil => simp
  | cons h ts2 ih =>
    rw [List.foldl_cons]
    have hni := (List.nodup_cons.mp hnd).1
    rw [ih (List.nodup_cons.mp hnd).2 (discard_wf hwf)]
    by_cases ht : t2 ∈ ts2
    · rw [if_pos ht, if_pos (List.mem_cons_of_mem _ ht)]
      have hne : t2 ≠ h := fun he => hni (he ▸ ht)
      rw [lookupTile_discard hwf, if_neg hne]
    · rw [if_neg ht]
      by_cases ht2 : t2 = h
      · subst ht2
        rw [if_pos (List.mem_cons_self _ _), lookupTile_discard hwf, if_pos rfl]
      · rw [if_neg (fun hm => (List.mem_cons.mp hm).elim ht2 ht),
          lookupTile_discard hwf, if_neg ht2]

theorem lookupTile_addFold {ts : List Tile} (hnd : ts.Nodup)
    {idx : List (Tile × List String)} {pa : String} {t2 : Tile} :
    lookupTile (ts.foldl (fun i t => addProj i t pa) idx) t2 =
      if t2 ∈ ts then
        (if pa ∈ lookupTile idx t2 then lookupTile idx t2 else pa :: lookupTile idx t2)
      else lookupTile idx t2 := by
  induction ts generalizing idx with
  | nil => simp
  | cons h ts2 ih =>
    rw [List.foldl_cons]
    have hni := (List.nodup_cons.mp hnd).1
    rw [ih (List.nodup_cons.mp hnd).2]
    by_cases ht : t2 ∈ ts2
    · rw [if_pos ht, if_pos (List.mem_cons_of_mem _ ht)]
      have hne : t2 ≠ h := fun he => hni (he ▸ ht)
      rw [lookupTile_add, if_neg hne]
    · rw [if_neg ht]
      by_cases ht2 : t2 = h
      · subst ht2
        rw [if_pos (List.mem_cons_self _ _), lookupTile_add, if_pos rfl]
      · rw [if_neg (fun hm => (List.mem_cons.mp hm).elim ht2 ht),
          lookupTile_add, if_neg ht2]



theorem forget_lookup_proj (s : MainState) (pa pa2 : String) :
    (forget_project s pa).projects.lookup pa2 =
      if pa2 = pa then none else s.projects.lookup pa2 := by
  rw [forget_project]
  cases hl : s.projects.lookup pa with
  | none =>
    dsimp only
    by_cases h : pa2 = pa
    · subst h
      rw [if_pos rfl, hl]
    · rw [if_neg h]
  | some rect =>
    dsimp only
    by_cases h : pa2 = pa
    · subst h
      rw [if_pos rfl, lookup_filter_self]
    · rw [if_neg h, lookup_filter_ne h]

theorem forget_inv {s : MainState} (hinv : StateInv s) (pa : String) :
    StateInv (forget_project s pa) := by
  obtain ⟨hproj, hwf, hchar⟩ := hinv
  rw [forget_project]
  cases hl : s.projects.lookup pa with
  | none => exact ⟨hproj, hwf, hchar⟩
  | some rect =>
    dsimp only
    refine ⟨hproj.sublist ((List.filter_sublist _).map _), discardFold_wf hwf, ?_⟩
    intro t pa2
    by_cases hpa : pa2 = pa
    · subst hpa
      constructor
      · intro hmem
        exfalso
        rw [lookupTile_discardFold (tiles_nodup rect) hwf] at hmem
        by_cases ht : t ∈ rect.tiles
        · rw [if_pos ht] at hmem
          have := (List.mem_filter.mp hmem).2
          simp at this
        · rw [if_neg ht] at hmem
          obtain ⟨r2, hr2, htr2⟩ := (hchar t pa2).mp hmem
          rw [hl] at hr2
          injection hr2 with h3
          exact ht (h3 ▸ htr2)
      · rintro ⟨r2, hr2, -⟩
        rw [lookup_filter_self] at hr2
        cases hr2
    · rw [lookupTile_discardFold (tiles_nodup rect) hwf, lookup_filter_ne hpa]
      by_cases ht : t ∈ rect.tiles
      · rw [if_pos ht, List.mem_filter]
        constructor
        · rintro ⟨hmem, -⟩
          exact (hchar t pa2).mp hmem
        · intro hr
          exact ⟨(hchar t pa2).mpr hr, by simp [hpa]⟩
      · rw [if_neg ht]
        exact hchar t pa2

theorem load_lookup_proj_self (s : MainState) (pa : String) (rect : Rectangle) :
    (load_project s pa (some rect)).projects.lookup pa = some rect := by
  rw [load_project]
  exact lookup_cons_self

theorem load_inv {s : MainState} (hinv : StateInv s) (pa : String) (o : Option Rectangle) :
    StateInv (load_project s pa o) := by
  cases o with
  | none => exact forget_inv hinv pa
  | some rect =>
    obtain ⟨hproj, hwf, hchar⟩ := forget_inv hinv pa
    have hnone : (forget_project s pa).projects.lookup pa = none := by
      rw [forget_lookup_proj, if_pos rfl]
    rw [load_project]
    refine ⟨?_, addFold_wf hwf, ?_⟩
    · rw [List.map_cons]
      exact List.nodup_cons.mpr ⟨lookup_none_iff_not_mem_keys.mp hnone, hproj⟩
    · intro t pa2
      rw [lookupTile_addFold (tiles_nodup rect)]
      by_cases hpa : pa2 = pa
      · subst hpa
        have hnotold : pa2 ∉ lookupTile (forget_project s pa2).tiles t := by
          intro hm
          obtain ⟨r2, hr2, -⟩ := (hchar t pa2).mp hm
          rw [hnone] at hr2
          cases hr2
        constructor
        · intro hmem
          by_cases ht : t ∈ rect.tiles
          · exact ⟨rect, lookup_cons_self, ht⟩
          · rw [if_neg ht] at hmem
            exact absurd hmem hnotold
        · rintro ⟨r2, hr2, htr2⟩
          rw [lookup_cons_self] at hr2
          injection hr2 with h3
          subst h3
          rw [if_pos htr2]
          by_cases hin : pa2 ∈ lookupTile (forget_project s pa2).tiles t
          · rw [if_pos hin]
            exact hin
          · rw [if_neg hin]
            exact List.mem_cons_self _ _
      · have hmm : ∀ l : List String, pa2 ∈ (if pa ∈ l then l else pa :: l) ↔ pa2 ∈ l := by
          intro l
          by_cases hin : pa ∈ l
          · rw [if_pos hin]
          · rw [if_neg hin]
            simp [List.mem_cons, hpa]
        rw [lookup_cons_ne hpa]
        by_cases ht : t ∈ rect.tiles
        · rw [if_pos ht, hmm]
          exact hchar t pa2
        · rw [if_neg ht]
          exact hchar t pa2



theorem mem_iff_lookup {α β : Type} [BEq α] [LawfulBEq α] {l : List (α × β)}
    (hnd : (l.map Prod.fst).Nodup) {k : α} {v : β} :
    (k, v) ∈ l ↔ l.lookup k = some v := by
  constructor
  · intro hmem
    induction l with
    | nil => cases hmem
    | cons e rest ih =>
      obtain ⟨k2, v2⟩ := e
      rcases List.mem_cons.mp hmem with he | hmem2
      · injection he with h1 h2
        subst h1
        subst h2
        exact lookup_cons_self
      · have hne : k ≠ k2 := by
          intro hk
          subst hk
          have : k ∈ rest.map Prod.fst := List.mem_map.mpr ⟨(k, v), hmem2, rfl⟩
          exact (List.nodup_cons.mp (by simpa using hnd)).1 this
        rw [lookup_cons_ne hne]
        exact ih (by simpa using (List.nodup_cons.mp (by simpa using hnd)).2) hmem2
  · exact lookup_some_mem

theorem load_tiles_aux (ps : List (String × Rectangle)) (idx : List (Tile × List String))
    (acc : List (String × Rectangle)) (hwf : TilesWF idx)
    (hchar : ∀ t pa, pa ∈ lookupTile idx t ↔ ∃ r, (pa, r) ∈ acc ∧ t ∈ r.tiles) :
    TilesWF (ps.foldl (fun i e => e.2.tiles.foldl (fun i2 t => addProj i2 t e.1) i) idx) ∧
    ∀ t pa, pa ∈ lookupTile
        (ps.foldl (fun i e => e.2.tiles.foldl (fun i2 t => addProj i2 t e.1) i) idx) t ↔
      ∃ r, (pa, r) ∈ acc ++ ps ∧ t ∈ r.tiles := by
  induction ps generalizing idx acc with
  | nil =>
    refine ⟨hwf, ?_⟩
    intro t pa
    rw [List.append_nil]
    exact hchar t pa
  | cons e ps2 ih =>
    obtain ⟨pa0, r0⟩ := e
    rw [List.foldl_cons]
    have hwf2 : TilesWF (r0.tiles.foldl (fun i2 t => addProj i2 t pa0) idx) := addFold_wf hwf
    have hchar2 : ∀ t pa, pa ∈ lookupTile (r0.tiles.foldl (fun i2 t => addProj i2 t pa0) idx) t ↔
        ∃ r, (pa, r) ∈ acc ++ [(pa0, r0)] ∧ t ∈ r.tiles := by
      intro t pa
      rw [lookupTile_addFold (tiles_nodup r0)]
      by_cases ht : t ∈ r0.tiles
      · rw [if_pos ht]
        by_cases hin : pa0 ∈ lookupTile idx t
        · rw [if_pos hin]
          rw [hchar t pa]
          constructor
          · rintro ⟨r, hmem, htr⟩
            exact ⟨r, List.mem_append_left _ hmem, htr⟩
          · rintro ⟨r, hmem, htr⟩
            rcases List.mem_append.mp hmem with hm | hm
            · exact ⟨r, hm, htr⟩
            · rcases List.mem_singleton.mp hm with he2
              injection he2 with h1 h2
              subst h1
              subst h2
              exact (hchar t pa).mp hin |>.imp (fun r2 hp => hp) |> fun hex => by
                obtain ⟨r2, hm2, ht2⟩ := hex
                exact ⟨r2, hm2, ht2⟩
        · rw [if_neg hin, List.mem_cons, hchar t pa]
          constructor
          · rintro (rfl | ⟨r, hmem, htr⟩)
            · exact ⟨r0, List.mem_append_right _ (List.mem_singleton.mpr rfl), ht⟩
            · exact ⟨r, List.mem_append_left _ hmem, htr⟩
          · rintro ⟨r, hmem, htr⟩
            rcases List.mem_append.mp hmem with hm | hm
            · exact Or.inr ⟨r, hm, htr⟩
            · have he2 := List.mem_singleton.mp hm
              injection he2 with h1 h2
              subst h1
              subst h2
              exact Or.inl rfl
      · rw [if_neg ht, hchar t pa]
        constructor
        · rintro ⟨r, hmem, htr⟩
          exact ⟨r, List.mem_append_left _ hmem, htr⟩
        · rintro ⟨r, hmem, htr⟩
          rcases List.mem_append.mp hmem with hm | hm
          · exact ⟨r, hm, htr⟩
          · have he2 := List.mem_singleton.mp hm
            injection he2 with h1 h2
            subst h1
            subst h2
            exact absurd htr ht
    have := ih _ _ hwf2 hchar2
    refine ⟨this.1, ?_⟩
    intro t pa
    rw [this.2 t pa, List.append_assoc]
    rfl

theorem initState_inv (ps : List (String × Rectangle))
    (hnd : (ps.map Prod.fst).Nodup) : StateInv (initState ps) := by
  have haux := load_tiles_aux ps [] [] ⟨List.nodup_nil, by simp⟩
    (by intro t pa; rw [lookupTile]; simp)
  refine ⟨hnd, haux.1, ?_⟩
  intro t pa
  rw [show (initState ps).tiles = load_tiles ps from rfl, load_tiles, haux.2 t pa]
  constructor
  · rintro ⟨r, hmem, htr⟩
    exact ⟨r, (mem_iff_lookup hnd).mp (by simpa using hmem), htr⟩
  · rintro ⟨r, hl, htr⟩
    exact ⟨r, by simpa using (mem_iff_lookup hnd).mpr hl, htr⟩


theorem applyOps_inv {s : MainState} (hinv : StateInv s) (ops : List MainOp) :
    StateInv (applyOps s ops) := by
  induction ops generalizing s with
  | nil => exact hinv
  | cons op rest ih =>
    rw [applyOps, List.foldl_cons]
    cases op with
    | forgetOp pa => exact ih (forget_inv hinv pa)
    | loadOp pa o => exact ih (load_inv hinv pa o)



/-- Claim C7: after any sequence of load_project and forget_project
operations starting from the index built by _load_tiles, a tile maps to
a set containing project p iff p is live and the tile is in p's
rectangle's tile set; no tile maps to an empty set, and a removed
project appears in no tile's set (the iff direction right-to-left with
a missing project is unsatisfiable). -/
theorem C7_tile_index_invariant (ps : List (String × Rectangle))
    (hnd : (ps.map Prod.fst).Nodup) (ops : List MainOp) :
    (∀ t entry, (t, entry) ∈ (applyOps (initState ps) ops).tiles → entry ≠ []) ∧
    (∀ t pa, pa ∈ lookupTile (applyOps (initState ps) ops).tiles t ↔
      ∃ r, (applyOps (initState ps) ops).projects.lookup pa = some r ∧ t ∈ r.tiles) := by
  have hinv := applyOps_inv (initState_inv ps hnd) ops
  exact ⟨fun t entry hm => hinv.2.1.2 (t, entry) hm, hinv.2.2⟩

/-- Witness for C7_tile_index_invariant: a single project on the unit
rectangle and no operations. -/
theorem C7_tile_index_invariant_witness :
    (∀ t entry,
      (t, entry) ∈ (applyOps (initState [("a", Rectangle.mk 0 0 1 1)]) []).tiles → entry ≠ []) ∧
    (∀ t pa, pa ∈ lookupTile (applyOps (initState [("a", Rectangle.mk 0 0 1 1)]) []).tiles t ↔
      ∃ r, (applyOps (initState [("a", Rectangle.mk 0 0 1 1)]) []).projects.lookup pa = some r ∧
        t ∈ r.tiles) :=
  C7_tile_index_invariant [("a", Rectangle.mk 0 0 1 1)] (by decide) []

/-- Claim C10: two Projects compare equal iff their source paths are
equal, regardless of rectangles or loaded images; equal projects have
equal hashes; and re-adding a project at the same path displaces the
old one — after load_project the live rectangle at that path is the new
one and the index maps exactly the new rectangle's tiles to that path. -/
theorem C10_project_identity (p q : Project) (s : MainState) (pa : String) (r : Rectangle)
    (hinv : StateInv s) :
    (Project.eqPy p q = true ↔ p.path = q.path) ∧
    (Project.eqPy p q = true → Project.hashPy p = Project.hashPy q) ∧
    ((load_project s pa (some r)).projects.lookup pa = some r) ∧
    (∀ t, pa ∈ lookupTile (load_project s pa (some r)).tiles t ↔ t ∈ r.tiles) := by
  have hl3 := load_lookup_proj_self s pa r
  refine ⟨?_, ?_, hl3, ?_⟩
  · rw [Project.eqPy, beq_iff_eq]
  · intro h
    rw [Project.eqPy, beq_iff_eq] at h
    rw [Project.hashPy, Project.hashPy, h]
  · intro t
    rw [(load_inv hinv pa (some r)).2.2 t pa]
    constructor
    · rintro ⟨r2, hr2, ht⟩
      rw [hl3] at hr2
      injection hr2 with h3
      exact h3 ▸ ht
    · intro ht
      exact ⟨r, hl3, ht⟩

/-- Witness for C10_project_identity: two projects sharing the path a
with different rectangles and images, and a load into the empty state. -/
theorem C10_project_identity_witness :
    Project.eqPy ⟨"a", Rectangle.mk 0 0 1 1, none⟩ ⟨"a", Rectangle.mk 5 5 9 9, some [1]⟩ = true ∧
    (load_project (initState []) "x" (some (Rectangle.mk 0 0 1 1))).projects.lookup "x" =
      some (Rectangle.mk 0 0 1 1) :=
  have hthm := C10_project_identity ⟨"a", Rectangle.mk 0 0 1 1, none⟩
    ⟨"a", Rectangle.mk 5 5 9 9, some [1]⟩ (initState []) "x" (Rectangle.mk 0 0 1 1)
    (initState_inv [] (by decide))
  ⟨hthm.1.mpr rfl, hthm.2.2.1⟩


end Wwpppp
